import Mathlib

set_option autoImplicit false

namespace TsToZod

/-- Opaque generated code statements. A `node` is a statement produced by the
per-declaration compiler (an external collaborator, identified here by an opaque
tag); `lazyRef` marks a statement rewritten into the deferred-evaluation form. -/
inductive Stmt where
  | node : String → Stmt
  | lazyRef : String → Stmt → String → Stmt
deriving DecidableEq, Repr

/-- Modelled from the spec: the Cycle Transformer (`transformRecursiveSchema`,
whose source is not included) rewrites a self-referencing statement into a
deferred-evaluation form, recording the zod import value and the type name.
Modelled as an opaque marked rewrite of the statement. -/
def transformRecursiveSchema (zodImportValue : String) (statement : Stmt)
    (typeName : String) : Stmt :=
  Stmt.lazyRef zodImportValue statement typeName

/-- A declaration candidate as produced for each extracted node in
`generate` (src/core/generate.ts, lines 68-80): the source type name, the
generated validator name, the candidate statement and the list of referenced
validator names. -/
structure Candidate where
  typeName : String
  varName : String
  statement : Stmt
  dependencies : List String
deriving DecidableEq, Repr

/-- An entry of the `statements` map (src/core/generate.ts, lines 84-87). -/
structure ResolvedStatement where
  typeName : String
  value : Stmt
deriving DecidableEq, Repr

/-- The insertion-ordered `statements` map keyed by `varName`, embedded as an
association list: JS `Map` iterates in insertion order. -/
abbrev StatementMap := List (String × ResolvedStatement)

/-- Keys of the statement map, in insertion order. -/
def keys (m : StatementMap) : List String := m.map Prod.fst

/-- Embedding of `statements.has(k)`. -/
def hasKey (m : StatementMap) (k : String) : Bool := decide (k ∈ keys m)

/-- Embedding of `statements.set(k, v)`: JS `Map.set` updates the value in
place when the key is present (keeping its position) and appends otherwise. -/
def mapSet (m : StatementMap) (k : String) (v : ResolvedStatement) : StatementMap :=
  if hasKey m k then m.map (fun p => if p.1 = k then (k, v) else p) else m ++ [(k, v)]

/-- Embedding of `typeImports.add(x)`: JS `Set.add` keeps insertion order and
ignores duplicates. -/
def setAdd (s : List String) (x : String) : List String :=
  if x ∈ s then s else s ++ [x]

/-- First value stored under a key, mirroring `Map.get`. -/
def findStmt (m : StatementMap) (k : String) : Option ResolvedStatement :=
  match m with
  | [] => none
  | (k', v) :: rest => if k' = k then some v else findStmt rest k

/-- The mutable state of the resolution loop: the `statements` map and the
`typeImports` set (src/core/generate.ts, lines 84-88). -/
structure ResolveState where
  statements : StatementMap
  typeImports : List String
deriving DecidableEq, Repr

/-- Both accumulators start empty. -/
def initState : ResolveState := ⟨[], []⟩

/-- Body of the `forEach` callback (src/core/generate.ts, lines 94-110): compute
`isCircular` and the missing dependencies against the LIVE state, and if no
dependency is missing, store the statement (rewritten by the cycle transformer
when circular, also adding the type name to `typeImports`). -/
def stepCandidate (st : ResolveState) (c : Candidate) : ResolveState :=
  let isCircular := c.dependencies.contains c.varName
  let missingDependencies :=
    (c.dependencies.filter (fun dep => dep != c.varName)).filter
      (fun dep => !hasKey st.statements dep)
  if missingDependencies.isEmpty then
    if isCircular then
      { statements := mapSet st.statements c.varName
          ⟨c.typeName, transformRecursiveSchema "z" c.statement c.typeName⟩,
        typeImports := setAdd st.typeImports c.typeName }
    else
      { st with statements := mapSet st.statements c.varName ⟨c.typeName, c.statement⟩ }
  else st

/-- One round of the loop (src/core/generate.ts, lines 92-110): the not-yet
resolved candidates are selected up front (`filter` snapshots before `forEach`
runs), then processed in order against the live state. -/
def runPass (st : ResolveState) (cands : List Candidate) : ResolveState :=
  (cands.filter (fun c => !hasKey st.statements c.varName)).foldl stepCandidate st

/-- The `while` loop (src/core/generate.ts, lines 90-113), fuelled by the
number of remaining iterations: stop when every candidate is resolved
(`statements.size === zodSchemas.length`) or the fuel is exhausted. -/
def resolveRounds (cands : List Candidate) : Nat → ResolveState → ResolveState
  | 0, st => st
  | fuel + 1, st =>
      if st.statements.length = cands.length then st
      else resolveRounds cands fuel (runPass st cands)

/-- The full resolution: at most `maxRun` rounds starting from the empty state.
`maxRun` is a JS number that may be zero or negative, hence `Int`; the loop
condition `n < maxRun` with `n` counting up from 0 allows exactly
`max maxRun 0` rounds. -/
def resolve (cands : List Candidate) (maxRun : Int) : ResolveState :=
  resolveRounds cands maxRun.toNat initState

/-- Embedding of `missingStatements` (src/core/generate.ts, lines 116-118). -/
def missingStatements (cands : List Candidate) (st : ResolveState) : List Candidate :=
  cands.filter (fun c => !hasKey st.statements c.varName)

/-- The single error entry pushed when some candidates are unresolved
(src/core/generate.ts, lines 122-127). -/
def mkErrorMessage (names : List String) : String :=
  "Some schemas can\x27t be generated due to circular dependencies:\n" ++
    String.intercalate "\n" names

/-- The `errors` list (src/core/generate.ts, lines 120-127). -/
def errorsOf (cands : List Candidate) (st : ResolveState) : List String :=
  let missing := missingStatements cands st
  if missing.isEmpty then [] else [mkErrorMessage (missing.map Candidate.varName)]

/-- The returned `hasCircularDependencies` flag (src/core/generate.ts,
line 212): `imports.length > 0` where `imports` lists the type imports. -/
def hasCircularFlag (st : ResolveState) : Bool := st.typeImports.length > 0

/-- Modelled from the spec: the Renderer collaborator (`ts.createPrinter`,
external) serializes a statement to text; `keepComments` mirrors the
`removeComments` printer option, irrelevant to the opaque statements here. -/
def printStmt (keepComments : Bool) : Stmt → String
  | Stmt.node s => s
  | Stmt.lazyRef z inner t =>
      z ++ ".lazy(() => " ++ printStmt keepComments inner ++ ") as " ++ t

/-- The zod-schemas output text (src/core/generate.ts, lines 138-150): header,
optional type-import line when the import set is non-empty, then the printed
statements joined by blank lines. -/
def getZodSchemasFileText (keepComments : Bool) (imports : List String)
    (stmts : List ResolvedStatement) (typesImportPath : String) : String :=
  "// Generated by ts-to-zod\nimport \x7b z \x7d from \"zod\";\n" ++
    (if imports.length != 0 then
        "import \x7b " ++ String.intercalate ", " imports ++ " \x7d from \"" ++
          typesImportPath ++ "\";\n"
      else "") ++
    "\n" ++
    String.intercalate "\n\n" (stmts.map (fun s => printStmt keepComments s.value)) ++
    "\n"

/-- A zodType/tsType pair handed to the integration-test generator
(src/core/generate.ts, lines 152-157). -/
structure TestCasePair where
  zodType : String
  tsType : String
deriving DecidableEq, Repr

/-- Modelled from the spec: the Integration-Test Generator collaborator
(`generateIntegrationTests`, source not included) emits one assertion per
resolved declaration, in order. -/
def generateIntegrationTests (pairs : List TestCasePair) : List String :=
  pairs.map (fun p => "expectType<" ++ p.tsType ++ ">(\x7b\x7d as " ++ p.zodType ++ ")")

/-- Modelled from the spec: `generateZodInferredType` (source not included)
emits the inferred-type alias for one resolved declaration. -/
def generateZodInferredType (aliasName : String) (zodConstName : String)
    (zodImportValue : String) : String :=
  "type " ++ aliasName ++ " = " ++ zodImportValue ++ ".infer<typeof " ++
    zodConstName ++ ">;"

/-- The integration-test output text (src/core/generate.ts, lines 152-186):
header and helpers, the inferred-type aliases of the resolved statements in
order, then the test cases. -/
def getIntegrationTestFileText (keepComments : Bool) (getSchemaName : String → String)
    (stmts : List ResolvedStatement) (typesImportPath : String)
    (zodSchemasImportPath : String) : String :=
  let testCases := generateIntegrationTests (stmts.map (fun i =>
    ⟨getSchemaName i.typeName ++ "InferredType", "spec." ++ i.typeName⟩))
  "// Generated by ts-to-zod\nimport \x7b z \x7d from \"zod\";\n\nimport * as spec from \"" ++
    typesImportPath ++ "\";\nimport * as generated from \"" ++ zodSchemasImportPath ++
    "\";\n\n// eslint-disable-next-line @typescript-eslint/no-unused-vars\nfunction expectType<T>(_: T) \x7b\n  /* noop */\n\x7d\n\n" ++
    String.intercalate "\n\n" (stmts.map (fun statement =>
      generateZodInferredType (getSchemaName statement.typeName ++ "InferredType")
        ("generated." ++ getSchemaName statement.typeName) "z")) ++
    "\n" ++ String.intercalate "\n" (testCases.map (fun t => t)) ++ "\n"

/-- The record returned by `generate` (src/core/generate.ts, lines 188-213). -/
structure GenerateResult where
  getZodSchemasFile : String → String
  getIntegrationTestFile : String → String → String
  errors : List String
  hasCircularDependencies : Bool

/-- Everything `generate` does after the candidates are built
(src/core/generate.ts, lines 82-213): run the resolution loop, compute the
error report, and assemble the two output texts from the resolved statements
in insertion order. -/
def generateFromCandidates (cands : List Candidate) (maxRun : Int)
    (getSchemaName : String → String) (keepComments : Bool) : GenerateResult :=
  let final := resolve cands maxRun
  let stmts := final.statements.map Prod.snd
  { getZodSchemasFile := fun p =>
      getZodSchemasFileText keepComments final.typeImports stmts p,
    getIntegrationTestFile := fun p q =>
      getIntegrationTestFileText keepComments getSchemaName stmts p q,
    errors := errorsOf cands final,
    hasCircularDependencies := hasCircularFlag final }

/-- Modelled from the spec: a source declaration as seen by the core, the
output of the Declaration Extractor collaborator (the parser is external): a
name and the names referenced inside its shape. -/
structure SourceDecl where
  name : String
  refs : List String
deriving DecidableEq, Repr

/-- Modelled from the spec: the extraction pipeline (src/core/generate.ts,
lines 49-80): keep the declarations accepted by `nameFilter` in order, and
compile each into a candidate whose `varName` and `dependencies` go through
the naming function. -/
def extractCandidates (decls : List SourceDecl) (nameFilter : String → Bool)
    (getSchemaName : String → String) : List Candidate :=
  (decls.filter (fun d => nameFilter d.name)).map (fun d =>
    ⟨d.name, getSchemaName d.name, Stmt.node d.name, d.refs.map getSchemaName⟩)

/-- The `generate` entry point over the shallow source model. -/
def generate (sourceText : List SourceDecl) (maxRun : Int)
    (nameFilter : String → Bool) (getSchemaName : String → String)
    (keepComments : Bool) : GenerateResult :=
  generateFromCandidates (extractCandidates sourceText nameFilter getSchemaName)
    maxRun getSchemaName keepComments

/-! Basic lemmas about the statement map. -/

theorem keys_nil : keys [] = [] := rfl

theorem keys_cons (k : String) (v : ResolvedStatement) (m : StatementMap) :
    keys ((k, v) :: m) = k :: keys m := rfl

theorem hasKey_iff (m : StatementMap) (k : String) : hasKey m k = true ↔ k ∈ keys m := by
  simp [hasKey]

theorem hasKey_false_iff (m : StatementMap) (k : String) :
    hasKey m k = false ↔ k ∉ keys m := by
  simp [hasKey]

theorem keys_append (m l : StatementMap) : keys (m ++ l) = keys m ++ keys l := by
  simp [keys]

theorem mapSet_of_not_hasKey {m : StatementMap} {k : String} (v : ResolvedStatement)
    (h : hasKey m k = false) : mapSet m k v = m ++ [(k, v)] := by
  simp [mapSet, h]

theorem keys_mapSet_of_hasKey {m : StatementMap} {k : String} (v : ResolvedStatement)
    (h : hasKey m k = true) : keys (mapSet m k v) = keys m := by
  simp only [mapSet, h, if_true]
  simp only [keys, List.map_map]
  apply List.map_congr_left
  intro p _
  by_cases hp : p.1 = k <;> simp [hp]

theorem keys_mapSet_subset {m : StatementMap} {k : String} {v : ResolvedStatement} :
    ∀ a ∈ keys (mapSet m k v), a ∈ keys m ∨ a = k := by
  intro a ha
  by_cases h : hasKey m k = true
  · rw [keys_mapSet_of_hasKey v h] at ha; exact Or.inl ha
  · rw [mapSet_of_not_hasKey v (by simpa using h), keys_append] at ha
    simp [keys] at ha
    rcases ha with ha | ha
    · exact Or.inl (by simpa [keys] using ha)
    · exact Or.inr ha

theorem hasKey_mapSet_self (m : StatementMap) (k : String) (v : ResolvedStatement) :
    hasKey (mapSet m k v) k = true := by
  by_cases h : hasKey m k = true
  · rw [hasKey_iff, keys_mapSet_of_hasKey v h]; exact (hasKey_iff m k).mp h
  · rw [hasKey_iff, mapSet_of_not_hasKey v (by simpa using h), keys_append]
    simp [keys]

theorem hasKey_mapSet_mono {m : StatementMap} {a : String} (k : String)
    (v : ResolvedStatement) (h : hasKey m a = true) : hasKey (mapSet m k v) a = true := by
  by_cases hk : hasKey m k = true
  · rw [hasKey_iff, keys_mapSet_of_hasKey v hk]; exact (hasKey_iff m a).mp h
  · rw [hasKey_iff, mapSet_of_not_hasKey v (by simpa using hk), keys_append]
    exact List.mem_append_left _ ((hasKey_iff m a).mp h)

theorem keys_mapSet_nodup {m : StatementMap} {k : String} {v : ResolvedStatement}
    (h : (keys m).Nodup) : (keys (mapSet m k v)).Nodup := by
  by_cases hk : hasKey m k = true
  · rw [keys_mapSet_of_hasKey v hk]; exact h
  · rw [mapSet_of_not_hasKey v (by simpa using hk), keys_append]
    have hknot : k ∉ keys m := (hasKey_false_iff m k).mp (by simpa using hk)
    refine List.Nodup.append h (List.nodup_singleton k) ?_
    intro a ha hb
    simp only [keys_cons, keys_nil, List.mem_singleton] at hb
    subst hb
    exact hknot ha

theorem findStmt_eq_none_iff (m : StatementMap) (k : String) :
    findStmt m k = none ↔ k ∉ keys m := by
  induction m with
  | nil => simp [findStmt, keys_nil]
  | cons p rest ih =>
      obtain ⟨k', v⟩ := p
      by_cases h : k' = k
      · subst h; simp [findStmt, keys_cons]
      · simp [findStmt, h, ih, keys_cons, Ne.symm h]

theorem findStmt_append_of_not_mem {m : StatementMap} {k : String} (l : StatementMap)
    (h : k ∉ keys m) : findStmt (m ++ l) k = findStmt l k := by
  induction m with
  | nil => simp
  | cons p rest ih =>
      obtain ⟨k', v⟩ := p
      rw [keys_cons] at h
      simp only [List.mem_cons] at h
      push_neg at h
      simp [findStmt, Ne.symm h.1, ih h.2]

theorem findStmt_append_left {m : StatementMap} {k : String} (l : StatementMap)
    (h : k ∈ keys m) : findStmt (m ++ l) k = findStmt m k := by
  induction m with
  | nil => simp [keys_nil] at h
  | cons p rest ih =>
      obtain ⟨k', v⟩ := p
      by_cases hk : k' = k
      · simp [findStmt, hk]
      · rw [keys_cons] at h
        simp only [List.mem_cons] at h
        rcases h with h | h
        · exact absurd h.symm hk
        · simp [findStmt, hk, ih h]

theorem findStmt_mapInPlace_ne {m : StatementMap} {a k : String} (v : ResolvedStatement)
    (h : a ≠ k) :
    findStmt (m.map (fun p => if p.1 = k then (k, v) else p)) a = findStmt m a := by
  induction m with
  | nil => simp [findStmt]
  | cons p rest ih =>
      obtain ⟨k', w⟩ := p
      by_cases hp : k' = k
      · subst hp
        have h1 : ((k', w) :: rest).map (fun p => if p.1 = k' then (k', v) else p)
            = (k', v) :: rest.map (fun p => if p.1 = k' then (k', v) else p) := by
          simp
        rw [h1]
        simp [findStmt, Ne.symm h, ih]
      · have h1 : ((k', w) :: rest).map (fun p => if p.1 = k then (k, v) else p)
            = (k', w) :: rest.map (fun p => if p.1 = k then (k, v) else p) := by
          simp [hp]
        rw [h1]
        by_cases hka : k' = a <;> simp [findStmt, hka, ih]

theorem findStmt_mapSet_ne {m : StatementMap} {a k : String} (v : ResolvedStatement)
    (h : a ≠ k) : findStmt (mapSet m k v) a = findStmt m a := by
  by_cases hk : hasKey m k = true
  · simp only [mapSet, hk, if_true]
    exact findStmt_mapInPlace_ne v h
  · rw [mapSet_of_not_hasKey v (by simpa using hk)]
    by_cases hm : a ∈ keys m
    · exact findStmt_append_left _ hm
    · rw [findStmt_append_of_not_mem _ hm]
      simp [findStmt, Ne.symm h, (findStmt_eq_none_iff m a).mpr hm]

theorem findStmt_isSome_of_hasKey {m : StatementMap} {k : String}
    (h : hasKey m k = true) : ∃ v, findStmt m k = some v := by
  have := (hasKey_iff m k).mp h
  cases hf : findStmt m k with
  | none => exact absurd ((findStmt_eq_none_iff m k).mp hf) (by simpa using this)
  | some v => exact ⟨v, rfl⟩

/-! Lemmas about one `forEach` callback invocation. -/

/-- Eligibility of a candidate at a state: every dependency other than its own
name is already resolved (the `missingDependencies.length === 0` test). -/
def eligible (st : ResolveState) (c : Candidate) : Prop :=
  ∀ d ∈ c.dependencies, d ≠ c.varName → hasKey st.statements d = true

theorem missingDeps_empty_iff (st : ResolveState) (c : Candidate) :
    ((c.dependencies.filter (fun dep => dep != c.varName)).filter
      (fun dep => !hasKey st.statements dep)).isEmpty = true ↔ eligible st c := by
  rw [List.isEmpty_iff, List.filter_eq_nil_iff]
  constructor
  · intro h d hd hne
    by_contra hcon
    exact h d (List.mem_filter.mpr ⟨hd, by simpa using hne⟩) (by simpa using hcon)
  · intro h d hd
    have hd2 := List.mem_filter.mp hd
    have hne : d ≠ c.varName := by simpa using hd2.2
    simp [h d hd2.1 hne]

theorem contains_self_iff (c : Candidate) :
    c.dependencies.contains c.varName = true ↔ c.varName ∈ c.dependencies := by
  simp

theorem step_eq_of_not_eligible {st : ResolveState} {c : Candidate}
    (h : ¬ eligible st c) : stepCandidate st c = st := by
  simp only [stepCandidate]
  rw [if_neg]
  intro hcon
  exact h ((missingDeps_empty_iff st c).mp hcon)

theorem step_eq_circular {st : ResolveState} {c : Candidate}
    (h : eligible st c) (hc : c.varName ∈ c.dependencies) :
    stepCandidate st c =
      ⟨mapSet st.statements c.varName
        ⟨c.typeName, transformRecursiveSchema "z" c.statement c.typeName⟩,
       setAdd st.typeImports c.typeName⟩ := by
  simp only [stepCandidate]
  rw [if_pos ((missingDeps_empty_iff st c).mpr h),
    if_pos ((contains_self_iff c).mpr hc)]

theorem step_eq_plain {st : ResolveState} {c : Candidate}
    (h : eligible st c) (hc : c.varName ∉ c.dependencies) :
    stepCandidate st c =
      { st with statements := mapSet st.statements c.varName ⟨c.typeName, c.statement⟩ } := by
  simp only [stepCandidate]
  rw [if_pos ((missingDeps_empty_iff st c).mpr h), if_neg]
  intro hcon
  exact hc ((contains_self_iff c).mp hcon)

theorem step_hasKey_mono {st : ResolveState} {a : String} (c : Candidate)
    (h : hasKey st.statements a = true) :
    hasKey (stepCandidate st c).statements a = true := by
  by_cases he : eligible st c
  · by_cases hc : c.varName ∈ c.dependencies
    · rw [step_eq_circular he hc]; exact hasKey_mapSet_mono _ _ h
    · rw [step_eq_plain he hc]; exact hasKey_mapSet_mono _ _ h
  · rw [step_eq_of_not_eligible he]; exact h

theorem step_keys_subset {st : ResolveState} {c : Candidate} :
    ∀ a ∈ keys (stepCandidate st c).statements, a ∈ keys st.statements ∨ a = c.varName := by
  intro a ha
  by_cases he : eligible st c
  · by_cases hc : c.varName ∈ c.dependencies
    · rw [step_eq_circular he hc] at ha; exact keys_mapSet_subset a ha
    · rw [step_eq_plain he hc] at ha; exact keys_mapSet_subset a ha
  · rw [step_eq_of_not_eligible he] at ha; exact Or.inl ha

theorem step_keys_nodup {st : ResolveState} (c : Candidate)
    (h : (keys st.statements).Nodup) : (keys (stepCandidate st c).statements).Nodup := by
  by_cases he : eligible st c
  · by_cases hc : c.varName ∈ c.dependencies
    · rw [step_eq_circular he hc]; exact keys_mapSet_nodup h
    · rw [step_eq_plain he hc]; exact keys_mapSet_nodup h
  · rw [step_eq_of_not_eligible he]; exact h

theorem mem_setAdd_iff (s : List String) (x a : String) :
    a ∈ setAdd s x ↔ a ∈ s ∨ a = x := by
  by_cases h : x ∈ s
  · simp only [setAdd, if_pos h]
    constructor
    · exact Or.inl
    · rintro (ha | rfl) <;> [exact ha; exact h]
  · simp [setAdd, if_neg h]

theorem step_imports_mono {st : ResolveState} {t : String} (c : Candidate)
    (h : t ∈ st.typeImports) : t ∈ (stepCandidate st c).typeImports := by
  by_cases he : eligible st c
  · by_cases hc : c.varName ∈ c.dependencies
    · rw [step_eq_circular he hc]
      exact (mem_setAdd_iff _ _ _).mpr (Or.inl h)
    · rw [step_eq_plain he hc]; exact h
  · rw [step_eq_of_not_eligible he]; exact h

theorem step_imports_subset {st : ResolveState} {c : Candidate} :
    ∀ t ∈ (stepCandidate st c).typeImports,
      t ∈ st.typeImports ∨ (t = c.typeName ∧ c.varName ∈ c.dependencies) := by
  intro t ht
  by_cases he : eligible st c
  · by_cases hc : c.varName ∈ c.dependencies
    · rw [step_eq_circular he hc] at ht
      rcases (mem_setAdd_iff _ _ _).mp ht with h | h
      · exact Or.inl h
      · exact Or.inr ⟨h, hc⟩
    · rw [step_eq_plain he hc] at ht; exact Or.inl ht
  · rw [step_eq_of_not_eligible he] at ht; exact Or.inl ht

theorem step_findStmt_ne {st : ResolveState} {c : Candidate} {a : String}
    (h : a ≠ c.varName) :
    findStmt (stepCandidate st c).statements a = findStmt st.statements a := by
  by_cases he : eligible st c
  · by_cases hc : c.varName ∈ c.dependencies
    · rw [step_eq_circular he hc]; exact findStmt_mapSet_ne _ h
    · rw [step_eq_plain he hc]; exact findStmt_mapSet_ne _ h
  · rw [step_eq_of_not_eligible he]

theorem step_hasKey_of_eligible {st : ResolveState} {c : Candidate}
    (h : eligible st c) : hasKey (stepCandidate st c).statements c.varName = true := by
  by_cases hc : c.varName ∈ c.dependencies
  · rw [step_eq_circular h hc]; exact hasKey_mapSet_self _ _ _
  · rw [step_eq_plain h hc]; exact hasKey_mapSet_self _ _ _

theorem eligible_mono {st st2 : ResolveState} {c : Candidate}
    (hm : ∀ a, hasKey st.statements a = true → hasKey st2.statements a = true)
    (h : eligible st c) : eligible st2 c :=
  fun d hd hne => hm d (h d hd hne)

/-! Lemmas about folding the callback over a list of candidates. -/

theorem foldl_hasKey_mono {a : String} :
    ∀ (l : List Candidate) (st : ResolveState), hasKey st.statements a = true →
      hasKey ((l.foldl stepCandidate st)).statements a = true := by
  intro l
  induction l with
  | nil => intro st h; exact h
  | cons c rest ih =>
      intro st h
      exact ih (stepCandidate st c) (step_hasKey_mono c h)

theorem foldl_keys_subset :
    ∀ (l : List Candidate) (st : ResolveState),
      ∀ a ∈ keys ((l.foldl stepCandidate st)).statements,
        a ∈ keys st.statements ∨ a ∈ l.map Candidate.varName := by
  intro l
  induction l with
  | nil => intro st a ha; exact Or.inl ha
  | cons c rest ih =>
      intro st a ha
      rcases ih (stepCandidate st c) a ha with h | h
      · rcases step_keys_subset a h with h2 | h2
        · exact Or.inl h2
        · exact Or.inr (by simp [h2])
      · exact Or.inr (by simp [h])

theorem foldl_keys_nodup :
    ∀ (l : List Candidate) (st : ResolveState), (keys st.statements).Nodup →
      (keys ((l.foldl stepCandidate st)).statements).Nodup := by
  intro l
  induction l with
  | nil => intro st h; exact h
  | cons c rest ih => intro st h; exact ih _ (step_keys_nodup c h)

theorem foldl_imports_mono {t : String} :
    ∀ (l : List Candidate) (st : ResolveState), t ∈ st.typeImports →
      t ∈ ((l.foldl stepCandidate st)).typeImports := by
  intro l
  induction l with
  | nil => intro st h; exact h
  | cons c rest ih => intro st h; exact ih _ (step_imports_mono c h)

theorem foldl_imports_subset :
    ∀ (l : List Candidate) (st : ResolveState),
      ∀ t ∈ ((l.foldl stepCandidate st)).typeImports,
        t ∈ st.typeImports ∨ ∃ c ∈ l, c.typeName = t ∧ c.varName ∈ c.dependencies := by
  intro l
  induction l with
  | nil => intro st t ht; exact Or.inl ht
  | cons c rest ih =>
      intro st t ht
      rcases ih (stepCandidate st c) t ht with h | h
      · rcases step_imports_subset t h with h2 | h2
        · exact Or.inl h2
        · exact Or.inr ⟨c, by simp, h2.1.symm, h2.2⟩
      · obtain ⟨c2, hc2, hp⟩ := h
        exact Or.inr ⟨c2, by simp [hc2], hp⟩

theorem foldl_findStmt_ne {a : String} :
    ∀ (l : List Candidate) (st : ResolveState), (∀ c ∈ l, c.varName ≠ a) →
      findStmt ((l.foldl stepCandidate st)).statements a = findStmt st.statements a := by
  intro l
  induction l with
  | nil => intro st _; rfl
  | cons c rest ih =>
      intro st h
      rw [List.foldl_cons, ih _ (fun c2 hc2 => h c2 (by simp [hc2])),
        step_findStmt_ne (Ne.symm (h c (by simp)))]

/-! Lemmas about one round and about the round loop. -/

theorem runPass_hasKey_mono {st : ResolveState} {a : String} (cands : List Candidate)
    (h : hasKey st.statements a = true) :
    hasKey (runPass st cands).statements a = true :=
  foldl_hasKey_mono _ _ h

theorem runPass_keys_subset {st : ResolveState} {cands : List Candidate} :
    ∀ a ∈ keys (runPass st cands).statements,
      a ∈ keys st.statements ∨ a ∈ cands.map Candidate.varName := by
  intro a ha
  rcases foldl_keys_subset _ _ a ha with h | h
  · exact Or.inl h
  · obtain ⟨c, hc, rfl⟩ := List.mem_map.mp h
    exact Or.inr (List.mem_map.mpr ⟨c, (List.mem_filter.mp hc).1, rfl⟩)

theorem runPass_keys_nodup {st : ResolveState} (cands : List Candidate)
    (h : (keys st.statements).Nodup) : (keys (runPass st cands).statements).Nodup :=
  foldl_keys_nodup _ _ h

theorem runPass_imports_mono {st : ResolveState} {t : String} (cands : List Candidate)
    (h : t ∈ st.typeImports) : t ∈ (runPass st cands).typeImports :=
  foldl_imports_mono _ _ h

theorem runPass_imports_subset {st : ResolveState} {cands : List Candidate} :
    ∀ t ∈ (runPass st cands).typeImports,
      t ∈ st.typeImports ∨ ∃ c ∈ cands, c.typeName = t ∧ c.varName ∈ c.dependencies := by
  intro t ht
  rcases foldl_imports_subset _ _ t ht with h | h
  · exact Or.inl h
  · obtain ⟨c, hc, hp⟩ := h
    exact Or.inr ⟨c, (List.mem_filter.mp hc).1, hp⟩

theorem runPass_findStmt_of_hasKey {st : ResolveState} {a : String}
    (cands : List Candidate) (h : hasKey st.statements a = true) :
    findStmt (runPass st cands).statements a = findStmt st.statements a := by
  apply foldl_findStmt_ne
  intro c hc heq
  have h2 := (List.mem_filter.mp hc).2
  rw [heq, h] at h2
  exact absurd h2 (by simp)

theorem runPass_resolves_eligible {st : ResolveState} {cands : List Candidate}
    {c : Candidate} (hmem : c ∈ cands) (he : eligible st c) :
    hasKey (runPass st cands).statements c.varName = true := by
  by_cases hk : hasKey st.statements c.varName = true
  · exact runPass_hasKey_mono cands hk
  · have hk2 : hasKey st.statements c.varName = false := by simpa using hk
    have hc : c ∈ cands.filter (fun c => !hasKey st.statements c.varName) :=
      List.mem_filter.mpr ⟨hmem, by simp [hk2]⟩
    obtain ⟨s, t, hst⟩ := List.append_of_mem hc
    unfold runPass
    rw [hst, List.foldl_append, List.foldl_cons]
    apply foldl_hasKey_mono
    apply step_hasKey_of_eligible
    exact eligible_mono (fun a ha => foldl_hasKey_mono s st ha) he

theorem rounds_hasKey_mono {cands : List Candidate} {a : String} :
    ∀ (fuel : Nat) (st : ResolveState), hasKey st.statements a = true →
      hasKey (resolveRounds cands fuel st).statements a = true := by
  intro fuel
  induction fuel with
  | zero => intro st h; exact h
  | succ n ih =>
      intro st h
      rw [resolveRounds]
      by_cases hf : st.statements.length = cands.length
      · rw [if_pos hf]; exact h
      · rw [if_neg hf]; exact ih _ (runPass_hasKey_mono cands h)

theorem rounds_imports_mono {cands : List Candidate} {t : String} :
    ∀ (fuel : Nat) (st : ResolveState), t ∈ st.typeImports →
      t ∈ (resolveRounds cands fuel st).typeImports := by
  intro fuel
  induction fuel with
  | zero => intro st h; exact h
  | succ n ih =>
      intro st h
      rw [resolveRounds]
      by_cases hf : st.statements.length = cands.length
      · rw [if_pos hf]; exact h
      · rw [if_neg hf]; exact ih _ (runPass_imports_mono cands h)

theorem rounds_imports_subset {cands : List Candidate} :
    ∀ (fuel : Nat) (st : ResolveState),
      ∀ t ∈ (resolveRounds cands fuel st).typeImports,
        t ∈ st.typeImports ∨ ∃ c ∈ cands, c.typeName = t ∧ c.varName ∈ c.dependencies := by
  intro fuel
  induction fuel with
  | zero => intro st t ht; exact Or.inl ht
  | succ n ih =>
      intro st t ht
      rw [resolveRounds] at ht
      by_cases hf : st.statements.length = cands.length
      · rw [if_pos hf] at ht; exact Or.inl ht
      · rw [if_neg hf] at ht
        rcases ih _ t ht with h | h
        · exact runPass_imports_subset t h
        · exact Or.inr h

theorem rounds_keys_nodup {cands : List Candidate} :
    ∀ (fuel : Nat) (st : ResolveState), (keys st.statements).Nodup →
      (keys (resolveRounds cands fuel st).statements).Nodup := by
  intro fuel
  induction fuel with
  | zero => intro st h; exact h
  | succ n ih =>
      intro st h
      rw [resolveRounds]
      by_cases hf : st.statements.length = cands.length
      · rw [if_pos hf]; exact h
      · rw [if_neg hf]; exact ih _ (runPass_keys_nodup cands h)

theorem rounds_keys_subset {cands : List Candidate} :
    ∀ (fuel : Nat) (st : ResolveState),
      (∀ a ∈ keys st.statements, a ∈ cands.map Candidate.varName) →
      ∀ a ∈ keys (resolveRounds cands fuel st).statements,
        a ∈ cands.map Candidate.varName := by
  intro fuel
  induction fuel with
  | zero => intro st h; exact h
  | succ n ih =>
      intro st h
      rw [resolveRounds]
      by_cases hf : st.statements.length = cands.length
      · rw [if_pos hf]; exact h
      · rw [if_neg hf]
        apply ih
        intro a ha
        rcases runPass_keys_subset a ha with h2 | h2
        · exact h a h2
        · exact h2

theorem rounds_findStmt_of_hasKey {cands : List Candidate} {a : String} :
    ∀ (fuel : Nat) (st : ResolveState), hasKey st.statements a = true →
      findStmt (resolveRounds cands fuel st).statements a = findStmt st.statements a := by
  intro fuel
  induction fuel with
  | zero => intro st _; rfl
  | succ n ih =>
      intro st h
      rw [resolveRounds]
      by_cases hf : st.statements.length = cands.length
      · rw [if_pos hf]
      · rw [if_neg hf, ih _ (runPass_hasKey_mono cands h),
          runPass_findStmt_of_hasKey cands h]

theorem all_resolved_of_full {cands : List Candidate} {st : ResolveState}
    (hnd : (cands.map Candidate.varName).Nodup)
    (hkeys : ∀ a ∈ keys st.statements, a ∈ cands.map Candidate.varName)
    (hknd : (keys st.statements).Nodup)
    (hlen : st.statements.length = cands.length) :
    ∀ c ∈ cands, hasKey st.statements c.varName = true := by
  have hsp := List.subperm_of_subset hknd hkeys
  have hlen2 : (cands.map Candidate.varName).length ≤ (keys st.statements).length := by
    simp [keys, hlen]
  have hperm := hsp.perm_of_length_le hlen2
  intro c hcm
  rw [hasKey_iff]
  exact hperm.mem_iff.mpr (List.mem_map.mpr ⟨c, hcm, rfl⟩)

/-! Tracking the stored value of a resolved circular candidate. -/

/-- The entry stored for a circular candidate: its statement rewritten by the
cycle transformer (src/core/generate.ts, lines 100-105). -/
def circularEntry (c : Candidate) : ResolvedStatement :=
  ⟨c.typeName, transformRecursiveSchema "z" c.statement c.typeName⟩

theorem hasKey_of_findStmt_some {m : StatementMap} {k : String} {v : ResolvedStatement}
    (h : findStmt m k = some v) : hasKey m k = true := by
  rw [hasKey_iff]
  by_contra hc
  rw [(findStmt_eq_none_iff m k).mpr hc] at h
  cases h

theorem runPass_resolves_circular {st : ResolveState} {cands : List Candidate}
    {c : Candidate} (hnd : (cands.map Candidate.varName).Nodup) (hmem : c ∈ cands)
    (hk : hasKey st.statements c.varName = false) (hself : c.varName ∈ c.dependencies)
    (he : eligible st c) :
    findStmt (runPass st cands).statements c.varName = some (circularEntry c) ∧
      c.typeName ∈ (runPass st cands).typeImports := by
  have hc : c ∈ cands.filter (fun c => !hasKey st.statements c.varName) :=
    List.mem_filter.mpr ⟨hmem, by simp [hk]⟩
  have hndt : ((cands.filter (fun c => !hasKey st.statements c.varName)).map
      Candidate.varName).Nodup :=
    hnd.sublist ((List.filter_sublist cands).map Candidate.varName)
  obtain ⟨s, t, hst⟩ := List.append_of_mem hc
  rw [hst] at hndt
  rw [List.map_append, List.map_cons] at hndt
  have hnotin : c.varName ∉ s.map Candidate.varName ++ t.map Candidate.varName :=
    (List.nodup_middle.mp hndt).not_mem
  have hnotin_s : c.varName ∉ s.map Candidate.varName :=
    fun h => hnotin (List.mem_append_left _ h)
  have hnotin_t : c.varName ∉ t.map Candidate.varName :=
    fun h => hnotin (List.mem_append_right _ h)
  unfold runPass
  rw [hst, List.foldl_append, List.foldl_cons]
  have hk1 : hasKey ((s.foldl stepCandidate st)).statements c.varName = false := by
    rw [hasKey_false_iff]
    intro hin
    rcases foldl_keys_subset s st c.varName hin with h | h
    · exact absurd h ((hasKey_false_iff _ _).mp hk)
    · exact hnotin_s h
  have he1 : eligible (s.foldl stepCandidate st) c :=
    eligible_mono (fun a ha => foldl_hasKey_mono s st ha) he
  rw [step_eq_circular he1 hself]
  have hvt : ∀ c2 ∈ t, c2.varName ≠ c.varName := by
    intro c2 hc2 heq
    apply hnotin_t
    rw [← heq]
    exact List.mem_map.mpr ⟨c2, hc2, rfl⟩
  constructor
  · rw [foldl_findStmt_ne t _ hvt]
    dsimp only
    rw [mapSet_of_not_hasKey _ hk1,
      findStmt_append_of_not_mem _ ((hasKey_false_iff _ _).mp hk1)]
    simp [findStmt, circularEntry]
  · apply foldl_imports_mono
    dsimp only
    exact (mem_setAdd_iff _ _ _).mpr (Or.inr rfl)

theorem rounds_resolves_circular {cands : List Candidate} {c : Candidate}
    {st : ResolveState} {fuel : Nat} (hnd : (cands.map Candidate.varName).Nodup)
    (hkeys : ∀ a ∈ keys st.statements, a ∈ cands.map Candidate.varName)
    (hknd : (keys st.statements).Nodup) (hmem : c ∈ cands)
    (hk : hasKey st.statements c.varName = false) (hself : c.varName ∈ c.dependencies)
    (he : eligible st c) (hfuel : 1 ≤ fuel) :
    findStmt (resolveRounds cands fuel st).statements c.varName =
        some (circularEntry c) ∧
      c.typeName ∈ (resolveRounds cands fuel st).typeImports := by
  obtain ⟨n, rfl⟩ : ∃ n, fuel = n + 1 := ⟨fuel - 1, by omega⟩
  rw [resolveRounds]
  by_cases hf : st.statements.length = cands.length
  · exact absurd (all_resolved_of_full hnd hkeys hknd hf c hmem) (by simp [hk])
  · rw [if_neg hf]
    obtain ⟨hfind, himp⟩ := runPass_resolves_circular hnd hmem hk hself he
    refine ⟨?_, rounds_imports_mono n _ himp⟩
    rw [rounds_findStmt_of_hasKey n _ (hasKey_of_findStmt_some hfind)]
    exact hfind

/-! The stuck mutual-cycle invariant. -/

theorem foldl_stuck_pair {c1 c2 : Candidate}
    (hd1 : c2.varName ∈ c1.dependencies) (hd2 : c1.varName ∈ c2.dependencies)
    (hne : c1.varName ≠ c2.varName) :
    ∀ (l : List Candidate) (st : ResolveState),
      (∀ c ∈ l, c.varName = c1.varName → c = c1) →
      (∀ c ∈ l, c.varName = c2.varName → c = c2) →
      hasKey st.statements c1.varName = false →
      hasKey st.statements c2.varName = false →
      hasKey ((l.foldl stepCandidate st)).statements c1.varName = false ∧
        hasKey ((l.foldl stepCandidate st)).statements c2.varName = false := by
  intro l
  induction l with
  | nil => intro st _ _ h1 h2; exact ⟨h1, h2⟩
  | cons c rest ih =>
      intro st hv1 hv2 h1 h2
      have hstep : hasKey (stepCandidate st c).statements c1.varName = false ∧
          hasKey (stepCandidate st c).statements c2.varName = false := by
        by_cases hc1 : c = c1
        · subst hc1
          have hnel : ¬ eligible st c := by
            intro he
            have := he c2.varName hd1 (Ne.symm hne)
            rw [h2] at this
            exact absurd this (by simp)
          rw [step_eq_of_not_eligible hnel]
          exact ⟨h1, h2⟩
        · by_cases hc2 : c = c2
          · subst hc2
            have hnel : ¬ eligible st c := by
              intro he
              have := he c1.varName hd2 hne
              rw [h1] at this
              exact absurd this (by simp)
            rw [step_eq_of_not_eligible hnel]
            exact ⟨h1, h2⟩
          · have hv1c : c.varName ≠ c1.varName := fun h => hc1 (hv1 c (by simp) h)
            have hv2c : c.varName ≠ c2.varName := fun h => hc2 (hv2 c (by simp) h)
            constructor
            · rw [hasKey_false_iff]
              intro hin
              rcases step_keys_subset _ hin with h | h
              · exact absurd h ((hasKey_false_iff _ _).mp h1)
              · exact hv1c h.symm
            · rw [hasKey_false_iff]
              intro hin
              rcases step_keys_subset _ hin with h | h
              · exact absurd h ((hasKey_false_iff _ _).mp h2)
              · exact hv2c h.symm
      exact ih (stepCandidate st c) (fun c2 hc2 => hv1 c2 (by simp [hc2]))
        (fun c3 hc3 => hv2 c3 (by simp [hc3])) hstep.1 hstep.2

theorem rounds_stuck_pair {cands : List Candidate} {c1 c2 : Candidate}
    (hd1 : c2.varName ∈ c1.dependencies) (hd2 : c1.varName ∈ c2.dependencies)
    (hne : c1.varName ≠ c2.varName)
    (hv1 : ∀ c ∈ cands, c.varName = c1.varName → c = c1)
    (hv2 : ∀ c ∈ cands, c.varName = c2.varName → c = c2) :
    ∀ (fuel : Nat) (st : ResolveState),
      hasKey st.statements c1.varName = false →
      hasKey st.statements c2.varName = false →
      hasKey (resolveRounds cands fuel st).statements c1.varName = false ∧
        hasKey (resolveRounds cands fuel st).statements c2.varName = false := by
  intro fuel
  induction fuel with
  | zero => intro st h1 h2; exact ⟨h1, h2⟩
  | succ n ih =>
      intro st h1 h2
      rw [resolveRounds]
      by_cases hf : st.statements.length = cands.length
      · rw [if_pos hf]; exact ⟨h1, h2⟩
      · rw [if_neg hf]
        have hp := foldl_stuck_pair hd1 hd2 hne
          (cands.filter (fun c => !hasKey st.statements c.varName)) st
          (fun c hc => hv1 c (List.mem_filter.mp hc).1)
          (fun c hc => hv2 c (List.mem_filter.mp hc).1) h1 h2
        exact ih _ hp.1 hp.2

/-! Topological soundness of the insertion order. -/

/-- Topological soundness of the insertion-ordered statements map with respect
to a candidate list: every entry comes from a candidate whose non-self
dependencies were all inserted strictly earlier. -/
def topoOK (cands : List Candidate) (m : StatementMap) : Prop :=
  ∀ l1 e l2, m = l1 ++ e :: l2 →
    ∃ c ∈ cands, c.varName = e.1 ∧
      ∀ d ∈ c.dependencies, d ≠ c.varName → d ∈ keys l1

theorem split_of_append_single {α : Type} {m l1 l2 : List α} {e x : α}
    (h : m ++ [x] = l1 ++ e :: l2) :
    (∃ l2a, m = l1 ++ e :: l2a ∧ l2 = l2a ++ [x]) ∨ (l1 = m ∧ e = x ∧ l2 = []) := by
  rcases l2.eq_nil_or_concat' with rfl | ⟨l2a, y, rfl⟩
  · have h2 := List.append_inj' h (by simp)
    refine Or.inr ⟨h2.1.symm, ?_, rfl⟩
    have := h2.2
    simp only [List.cons.injEq, and_true] at this
    exact this.symm
  · rw [show l1 ++ e :: (l2a ++ [y]) = (l1 ++ e :: l2a) ++ [y] by simp] at h
    have h2 := List.append_inj' h (by simp)
    have hy : x = y := by
      have := h2.2
      simp only [List.cons.injEq, and_true] at this
      exact this
    exact Or.inl ⟨l2a, h2.1, by rw [hy]⟩

theorem topoOK_nil (cands : List Candidate) : topoOK cands [] := by
  intro l1 e l2 heq
  exact absurd heq.symm (by simp)

theorem topoOK_append {cands : List Candidate} {m : StatementMap} {c : Candidate}
    {v : ResolvedStatement} (h : topoOK cands m) (hc : c ∈ cands)
    (hdeps : ∀ d ∈ c.dependencies, d ≠ c.varName → d ∈ keys m) :
    topoOK cands (m ++ [(c.varName, v)]) := by
  intro l1 e l2 heq
  rcases split_of_append_single heq with ⟨l2a, hm, _⟩ | ⟨hl1, he, _⟩
  · exact h l1 e l2a hm
  · subst hl1
    subst he
    exact ⟨c, hc, rfl, hdeps⟩

theorem topoOK_step {cands : List Candidate} {st : ResolveState} {c : Candidate}
    (hc : c ∈ cands) (hnk : hasKey st.statements c.varName = false)
    (h : topoOK cands st.statements) : topoOK cands (stepCandidate st c).statements := by
  by_cases he : eligible st c
  · have hdeps : ∀ d ∈ c.dependencies, d ≠ c.varName → d ∈ keys st.statements :=
      fun d hd hne => (hasKey_iff _ _).mp (he d hd hne)
    by_cases hcir : c.varName ∈ c.dependencies
    · rw [step_eq_circular he hcir]
      dsimp only
      rw [mapSet_of_not_hasKey _ hnk]
      exact topoOK_append h hc hdeps
    · rw [step_eq_plain he hcir]
      dsimp only
      rw [mapSet_of_not_hasKey _ hnk]
      exact topoOK_append h hc hdeps
  · rw [step_eq_of_not_eligible he]
    exact h

theorem topoOK_foldl {cands : List Candidate} :
    ∀ (l : List Candidate) (st : ResolveState), (∀ c ∈ l, c ∈ cands) →
      (l.map Candidate.varName).Nodup →
      (∀ c ∈ l, hasKey st.statements c.varName = false) →
      topoOK cands st.statements →
      topoOK cands ((l.foldl stepCandidate st)).statements := by
  intro l
  induction l with
  | nil => intro st _ _ _ h; exact h
  | cons c rest ih =>
      intro st hsub hnd hnk h
      rw [List.map_cons, List.nodup_cons] at hnd
      refine ih (stepCandidate st c) (fun c2 hc2 => hsub c2 (by simp [hc2])) hnd.2
        ?_ (topoOK_step (hsub c (by simp)) (hnk c (by simp)) h)
      intro c2 hc2
      rw [hasKey_false_iff]
      intro hin
      rcases step_keys_subset _ hin with h2 | h2
      · exact absurd h2 ((hasKey_false_iff _ _).mp (hnk c2 (by simp [hc2])))
      · exact hnd.1 (h2 ▸ List.mem_map.mpr ⟨c2, hc2, rfl⟩)

theorem topoOK_runPass {cands : List Candidate} {st : ResolveState}
    (hnd : (cands.map Candidate.varName).Nodup) (h : topoOK cands st.statements) :
    topoOK cands (runPass st cands).statements := by
  apply topoOK_foldl _ st (fun c hc => (List.mem_filter.mp hc).1)
    (hnd.sublist ((List.filter_sublist cands).map Candidate.varName))
    (fun c hc => by simpa using (List.mem_filter.mp hc).2) h

theorem topoOK_rounds {cands : List Candidate}
    (hnd : (cands.map Candidate.varName).Nodup) :
    ∀ (fuel : Nat) (st : ResolveState), topoOK cands st.statements →
      topoOK cands (resolveRounds cands fuel st).statements := by
  intro fuel
  induction fuel with
  | zero => intro st h; exact h
  | succ n ih =>
      intro st h
      rw [resolveRounds]
      by_cases hf : st.statements.length = cands.length
      · rw [if_pos hf]; exact h
      · rw [if_neg hf]; exact ih _ (topoOK_runPass hnd h)

/-! Rank-based completeness on acyclic graphs. -/

theorem rounds_complete {cands : List Candidate} {r : String → Nat}
    (hnd : (cands.map Candidate.varName).Nodup)
    (hclosed : ∀ c ∈ cands, ∀ d ∈ c.dependencies, ∃ c2 ∈ cands, c2.varName = d)
    (hrank : ∀ c ∈ cands, ∀ d ∈ c.dependencies, r d < r c.varName) :
    ∀ (fuel : Nat) (st : ResolveState) (j : Nat),
      (∀ a ∈ keys st.statements, a ∈ cands.map Candidate.varName) →
      (keys st.statements).Nodup →
      (∀ c ∈ cands, r c.varName < j → hasKey st.statements c.varName = true) →
      ∀ c ∈ cands, r c.varName < j + fuel →
        hasKey (resolveRounds cands fuel st).statements c.varName = true := by
  intro fuel
  induction fuel with
  | zero => intro st j _ _ hbase c hc hr; exact hbase c hc (by omega)
  | succ n ih =>
      intro st j hkeys hknd hbase c hc hr
      rw [resolveRounds]
      by_cases hf : st.statements.length = cands.length
      · rw [if_pos hf]
        exact all_resolved_of_full hnd hkeys hknd hf c hc
      · rw [if_neg hf]
        have hstep : ∀ c2 ∈ cands, r c2.varName < j + 1 →
            hasKey (runPass st cands).statements c2.varName = true := by
          intro c2 hc2 hr2
          by_cases hlt : r c2.varName < j
          · exact runPass_hasKey_mono cands (hbase c2 hc2 hlt)
          · apply runPass_resolves_eligible hc2
            intro d hd _
            obtain ⟨c3, hc3, rfl⟩ := hclosed c2 hc2 d hd
            exact hbase c3 hc3 (by have := hrank c2 hc2 c3.varName hd; omega)
        refine ih _ (j + 1) ?_ (runPass_keys_nodup cands hknd) hstep c hc (by omega)
        intro a ha
        rcases runPass_keys_subset a ha with h | h
        · exact hkeys a h
        · exact h

/-! Claim theorems. -/

/-- C3: the errors list returned by generate is non-empty exactly when at
least one candidate remains unresolved after the round loop; in that case it
is a single entry listing the varName of every unresolved candidate, and when
every candidate resolves (equivalently, the unresolved list is empty) errors
is the empty list. -/
theorem c3_errors_iff_unresolved (cands : List Candidate) (maxRun : Int)
    (gsn : String → String) (kc : Bool) :
    ((generateFromCandidates cands maxRun gsn kc).errors ≠ [] ↔
      missingStatements cands (resolve cands maxRun) ≠ []) ∧
    (missingStatements cands (resolve cands maxRun) ≠ [] →
      (generateFromCandidates cands maxRun gsn kc).errors =
        [mkErrorMessage ((missingStatements cands (resolve cands maxRun)).map
          Candidate.varName)]) ∧
    (missingStatements cands (resolve cands maxRun) = [] →
      (generateFromCandidates cands maxRun gsn kc).errors = []) ∧
    (missingStatements cands (resolve cands maxRun) = [] ↔
      ∀ c ∈ cands, hasKey (resolve cands maxRun).statements c.varName = true) := by
  refine ⟨?_, ?_, ?_, ?_⟩
  · by_cases h : missingStatements cands (resolve cands maxRun) = [] <;>
      simp [generateFromCandidates, errorsOf, h, List.isEmpty_iff]
  · intro h
    simp [generateFromCandidates, errorsOf, List.isEmpty_iff, h]
  · intro h
    simp [generateFromCandidates, errorsOf, List.isEmpty_iff, h]
  · rw [missingStatements, List.filter_eq_nil_iff]
    constructor
    · intro h c hc
      have h2 := h c hc
      simpa using h2
    · intro h c hc
      simp [h c hc]

/-- C3 witness: a one-candidate input whose dependency never resolves produces
the single error entry listing its varName. -/
theorem c3_errors_iff_unresolved_witness :
    missingStatements [⟨"A", "aSchema", Stmt.node "sA", ["missing"]⟩]
        (resolve [⟨"A", "aSchema", Stmt.node "sA", ["missing"]⟩] 10) ≠ [] ∧
    (generateFromCandidates [⟨"A", "aSchema", Stmt.node "sA", ["missing"]⟩] 10
        (fun s => s) false).errors =
      [mkErrorMessage ((missingStatements [⟨"A", "aSchema", Stmt.node "sA", ["missing"]⟩]
        (resolve [⟨"A", "aSchema", Stmt.node "sA", ["missing"]⟩] 10)).map
          Candidate.varName)] :=
  ⟨by decide,
   (c3_errors_iff_unresolved [⟨"A", "aSchema", Stmt.node "sA", ["missing"]⟩] 10
     (fun s => s) false).2.1 (by decide)⟩

/-- C4: hasCircularDependencies is true exactly when the type-import set is
non-empty, and every member of that set comes from a resolved candidate with a
direct self-reference, so the flag is independent of candidates that failed to
resolve due to multi-node cycles. -/
theorem c4_flag_iff_imports (cands : List Candidate) (maxRun : Int)
    (gsn : String → String) (kc : Bool) :
    ((generateFromCandidates cands maxRun gsn kc).hasCircularDependencies = true ↔
      (resolve cands maxRun).typeImports ≠ []) ∧
    (∀ t ∈ (resolve cands maxRun).typeImports,
      ∃ c ∈ cands, c.typeName = t ∧ c.varName ∈ c.dependencies) := by
  constructor
  · simp [generateFromCandidates, hasCircularFlag, List.length_pos]
  · intro t ht
    simp only [resolve] at ht
    rcases rounds_imports_subset maxRun.toNat initState t ht with h | h
    · exact absurd h (by simp [initState])
    · exact h

/-- C4 witness: a self-referencing candidate makes the flag true and its type
name traces back to a self-referencing candidate. -/
theorem c4_flag_iff_imports_witness :
    (generateFromCandidates [⟨"Node", "nodeSchema", Stmt.node "sN", ["nodeSchema"]⟩] 10
        (fun s => s) false).hasCircularDependencies = true ∧
    ∃ c ∈ [(⟨"Node", "nodeSchema", Stmt.node "sN", ["nodeSchema"]⟩ : Candidate)],
      c.typeName = "Node" ∧ c.varName ∈ c.dependencies :=
  ⟨(c4_flag_iff_imports [⟨"Node", "nodeSchema", Stmt.node "sN", ["nodeSchema"]⟩] 10
      (fun s => s) false).1.mpr (by decide),
   (c4_flag_iff_imports [⟨"Node", "nodeSchema", Stmt.node "sN", ["nodeSchema"]⟩] 10
      (fun s => s) false).2 "Node" (by decide)⟩

/-- C10: when two distinct candidates collide on varName, the final resolved
mapping holds at most one entry under that key, and once that key is resolved
neither candidate is reported unresolved: the dropped candidate is silently
treated as resolved (the unresolved check keys on varName). -/
theorem c10_varname_collision (cands : List Candidate) (maxRun : Int)
    (c1 c2 : Candidate) (h1 : c1 ∈ cands) (h2 : c2 ∈ cands) (hne : c1 ≠ c2)
    (htn : c1.typeName ≠ c2.typeName) (hv : c1.varName = c2.varName) :
    List.count c1.varName (keys (resolve cands maxRun).statements) ≤ 1 ∧
    (hasKey (resolve cands maxRun).statements c1.varName = true →
      c1 ∉ missingStatements cands (resolve cands maxRun) ∧
      c2 ∉ missingStatements cands (resolve cands maxRun)) := by
  constructor
  · have hnd : (keys (resolve cands maxRun).statements).Nodup := by
      simp only [resolve]
      exact rounds_keys_nodup maxRun.toNat initState (by simp [initState, keys_nil])
    exact List.nodup_iff_count_le_one.mp hnd c1.varName
  · intro hk
    constructor
    · simp [missingStatements, List.mem_filter, hk]
    · simp [missingStatements, List.mem_filter, hv ▸ hk]

/-- C10 witness: two candidates sharing varName xSchema; one resolves, and
neither is reported missing. -/
theorem c10_varname_collision_witness :
    List.count "xSchema"
        (keys (resolve [⟨"A", "xSchema", Stmt.node "sA", []⟩,
          ⟨"B", "xSchema", Stmt.node "sB", []⟩] 10).statements) ≤ 1 ∧
    (⟨"A", "xSchema", Stmt.node "sA", []⟩ : Candidate) ∉
      missingStatements [⟨"A", "xSchema", Stmt.node "sA", []⟩,
        ⟨"B", "xSchema", Stmt.node "sB", []⟩]
        (resolve [⟨"A", "xSchema", Stmt.node "sA", []⟩,
          ⟨"B", "xSchema", Stmt.node "sB", []⟩] 10) ∧
    (⟨"B", "xSchema", Stmt.node "sB", []⟩ : Candidate) ∉
      missingStatements [⟨"A", "xSchema", Stmt.node "sA", []⟩,
        ⟨"B", "xSchema", Stmt.node "sB", []⟩]
        (resolve [⟨"A", "xSchema", Stmt.node "sA", []⟩,
          ⟨"B", "xSchema", Stmt.node "sB", []⟩] 10) := by
  have h := c10_varname_collision [⟨"A", "xSchema", Stmt.node "sA", []⟩,
      ⟨"B", "xSchema", Stmt.node "sB", []⟩] 10
    ⟨"A", "xSchema", Stmt.node "sA", []⟩ ⟨"B", "xSchema", Stmt.node "sB", []⟩
    (by decide) (by decide) (by decide) (by decide) (by decide)
  have h2 := h.2 (by decide)
  exact ⟨h.1, h2.1, h2.2⟩

/-- C9: with maxRun ≤ 0 and at least one candidate, the round loop never
executes: the resolution state stays empty, every varName is listed in the
single error entry, both output texts are built from an empty statement list
and an empty import set, and hasCircularDependencies is false (for every
candidate list, cyclic or not). -/
theorem c9_nonpositive_maxRun (cands : List Candidate) (maxRun : Int)
    (gsn : String → String) (kc : Bool) (p q : String)
    (hm : maxRun ≤ 0) (hne : cands ≠ []) :
    resolve cands maxRun = initState ∧
    (generateFromCandidates cands maxRun gsn kc).errors =
      [mkErrorMessage (cands.map Candidate.varName)] ∧
    (generateFromCandidates cands maxRun gsn kc).hasCircularDependencies = false ∧
    (generateFromCandidates cands maxRun gsn kc).getZodSchemasFile p =
      getZodSchemasFileText kc [] [] p ∧
    (generateFromCandidates cands maxRun gsn kc).getIntegrationTestFile p q =
      getIntegrationTestFileText kc gsn [] p q := by
  have hres : resolve cands maxRun = initState := by
    rw [resolve, Int.toNat_of_nonpos hm]
    rfl
  have hmiss : missingStatements cands initState = cands := by
    rw [missingStatements]
    apply List.filter_eq_self.mpr
    intro a _
    simp [initState, hasKey, keys_nil]
  refine ⟨hres, ?_, ?_, ?_, ?_⟩
  · simp [generateFromCandidates, hres, errorsOf, hmiss, List.isEmpty_iff, hne]
  · simp [generateFromCandidates, hres, hasCircularFlag, initState]
  · simp [generateFromCandidates, hres, initState]
  · simp [generateFromCandidates, hres, initState]

/-- C9 witness: a concrete acyclic two-candidate list with maxRun negative. -/
theorem c9_nonpositive_maxRun_witness :
    (generateFromCandidates [⟨"A", "aSchema", Stmt.node "sA", []⟩,
        ⟨"B", "bSchema", Stmt.node "sB", ["aSchema"]⟩] (-3) (fun s => s)
        false).errors = [mkErrorMessage ["aSchema", "bSchema"]] ∧
    (generateFromCandidates [⟨"A", "aSchema", Stmt.node "sA", []⟩,
        ⟨"B", "bSchema", Stmt.node "sB", ["aSchema"]⟩] (-3) (fun s => s)
        false).hasCircularDependencies = false ∧
    (generateFromCandidates [⟨"A", "aSchema", Stmt.node "sA", []⟩,
        ⟨"B", "bSchema", Stmt.node "sB", ["aSchema"]⟩] (-3) (fun s => s)
        false).getZodSchemasFile "./types" =
      getZodSchemasFileText false [] [] "./types" := by
  have h := c9_nonpositive_maxRun [⟨"A", "aSchema", Stmt.node "sA", []⟩,
      ⟨"B", "bSchema", Stmt.node "sB", ["aSchema"]⟩] (-3) (fun s => s) false
      "./types" "./schemas" (by decide) (by decide)
  exact ⟨h.2.1, h.2.2.1, h.2.2.2.1⟩

/-- C5: a candidate whose dependencies include its own varName and whose
every other dependency is already resolved is resolved in the current round:
the pass stores it under its varName with the statement rewritten by
transformRecursiveSchema, adds its typeName to the type imports, and the
hasCircularDependencies flag computed from the final state — the value
generate returns — is true. -/
theorem c5_self_cycle_resolves (cands : List Candidate) (st : ResolveState)
    (c : Candidate) (fuel : Nat)
    (hnd : (cands.map Candidate.varName).Nodup)
    (hkeys : ∀ a ∈ keys st.statements, a ∈ cands.map Candidate.varName)
    (hknd : (keys st.statements).Nodup)
    (hmem : c ∈ cands)
    (hk : hasKey st.statements c.varName = false)
    (hself : c.varName ∈ c.dependencies)
    (hother : ∀ d ∈ c.dependencies, d ≠ c.varName → hasKey st.statements d = true)
    (hfuel : 1 ≤ fuel) :
    hasKey (runPass st cands).statements c.varName = true ∧
    findStmt (resolveRounds cands fuel st).statements c.varName =
      some ⟨c.typeName, transformRecursiveSchema "z" c.statement c.typeName⟩ ∧
    c.typeName ∈ (resolveRounds cands fuel st).typeImports ∧
    hasCircularFlag (resolveRounds cands fuel st) = true ∧
    (∀ (maxRun : Int) (gsn : String → String) (kc : Bool),
      resolve cands maxRun = resolveRounds cands fuel st →
      (generateFromCandidates cands maxRun gsn kc).hasCircularDependencies = true) := by
  have hrc := rounds_resolves_circular hnd hkeys hknd hmem hk hself hother hfuel
  refine ⟨runPass_resolves_eligible hmem hother, hrc.1, hrc.2, ?_, ?_⟩
  · simp only [hasCircularFlag, gt_iff_lt, decide_eq_true_eq, List.length_pos]
    exact List.ne_nil_of_mem hrc.2
  · intro maxRun gsn kc heq
    simp only [generateFromCandidates, heq, hasCircularFlag, gt_iff_lt,
      decide_eq_true_eq, List.length_pos]
    exact List.ne_nil_of_mem hrc.2

/-- C5 witness: a self-referencing Node candidate whose only other dependency
is already resolved; the final flag of a full generate run is true. -/
theorem c5_self_cycle_resolves_witness :
    findStmt (resolveRounds [⟨"Dep", "depSchema", Stmt.node "sD", []⟩,
        ⟨"Node", "nodeSchema", Stmt.node "sN", ["depSchema", "nodeSchema"]⟩] 2
        ⟨[("depSchema", ⟨"Dep", Stmt.node "sD"⟩)], []⟩).statements "nodeSchema" =
      some ⟨"Node", transformRecursiveSchema "z" (Stmt.node "sN") "Node"⟩ ∧
    (generateFromCandidates [⟨"Dep", "depSchema", Stmt.node "sD", []⟩,
        ⟨"Node", "nodeSchema", Stmt.node "sN", ["depSchema", "nodeSchema"]⟩] 3
        (fun s => s) false).hasCircularDependencies = true := by
  have h := c5_self_cycle_resolves
    [⟨"Dep", "depSchema", Stmt.node "sD", []⟩,
      ⟨"Node", "nodeSchema", Stmt.node "sN", ["depSchema", "nodeSchema"]⟩]
    ⟨[("depSchema", ⟨"Dep", Stmt.node "sD"⟩)], []⟩
    ⟨"Node", "nodeSchema", Stmt.node "sN", ["depSchema", "nodeSchema"]⟩ 2
    (by decide) (by decide) (by decide) (by decide) (by decide) (by decide)
    (by decide) (by decide)
  exact ⟨h.2.1, h.2.2.2.2 3 (fun s => s) false (by decide)⟩

/-- C6: two candidates that each list the other's varName as a dependency and
neither of which lists its own varName are never resolved, for every value of
maxRun, and both varNames appear in the single error-report entry. -/
theorem c6_mutual_cycle_stuck (cands : List Candidate) (maxRun : Int)
    (gsn : String → String) (kc : Bool) (c1 c2 : Candidate)
    (h1 : c1 ∈ cands) (h2 : c2 ∈ cands)
    (hd1 : c2.varName ∈ c1.dependencies) (hd2 : c1.varName ∈ c2.dependencies)
    (hs1 : c1.varName ∉ c1.dependencies) (hs2 : c2.varName ∉ c2.dependencies)
    (hne : c1.varName ≠ c2.varName)
    (hnd : (cands.map Candidate.varName).Nodup) :
    hasKey (resolve cands maxRun).statements c1.varName = false ∧
    hasKey (resolve cands maxRun).statements c2.varName = false ∧
    ∃ names, (generateFromCandidates cands maxRun gsn kc).errors =
      [mkErrorMessage names] ∧ c1.varName ∈ names ∧ c2.varName ∈ names := by
  have hinj := List.inj_on_of_nodup_map hnd
  have hv1 : ∀ c ∈ cands, c.varName = c1.varName → c = c1 :=
    fun c hc h => hinj hc h1 h
  have hv2 : ∀ c ∈ cands, c.varName = c2.varName → c = c2 :=
    fun c hc h => hinj hc h2 h
  have hstuck := rounds_stuck_pair hd1 hd2 hne hv1 hv2 maxRun.toNat initState
    (by simp [initState, hasKey, keys_nil]) (by simp [initState, hasKey, keys_nil])
  rw [show resolveRounds cands maxRun.toNat initState = resolve cands maxRun from rfl]
    at hstuck
  refine ⟨hstuck.1, hstuck.2, ?_⟩
  have hm1 : c1 ∈ missingStatements cands (resolve cands maxRun) :=
    List.mem_filter.mpr ⟨h1, by simp [hstuck.1]⟩
  have hm2 : c2 ∈ missingStatements cands (resolve cands maxRun) :=
    List.mem_filter.mpr ⟨h2, by simp [hstuck.2]⟩
  have hmne : missingStatements cands (resolve cands maxRun) ≠ [] :=
    List.ne_nil_of_mem hm1
  refine ⟨(missingStatements cands (resolve cands maxRun)).map Candidate.varName,
    ?_, ?_, ?_⟩
  · simp [generateFromCandidates, errorsOf, List.isEmpty_iff, hmne]
  · exact List.mem_map.mpr ⟨c1, hm1, rfl⟩
  · exact List.mem_map.mpr ⟨c2, hm2, rfl⟩

/-- C6 witness: a concrete X and Y referencing each other at maxRun 10. -/
theorem c6_mutual_cycle_stuck_witness :
    hasKey (resolve [⟨"X", "xSchema", Stmt.node "sX", ["ySchema"]⟩,
        ⟨"Y", "ySchema", Stmt.node "sY", ["xSchema"]⟩] 10).statements "xSchema" = false ∧
    ∃ names, (generateFromCandidates [⟨"X", "xSchema", Stmt.node "sX", ["ySchema"]⟩,
        ⟨"Y", "ySchema", Stmt.node "sY", ["xSchema"]⟩] 10 (fun s => s) false).errors =
      [mkErrorMessage names] ∧ "xSchema" ∈ names ∧ "ySchema" ∈ names := by
  have h := c6_mutual_cycle_stuck [⟨"X", "xSchema", Stmt.node "sX", ["ySchema"]⟩,
      ⟨"Y", "ySchema", Stmt.node "sY", ["xSchema"]⟩] 10 (fun s => s) false
    ⟨"X", "xSchema", Stmt.node "sX", ["ySchema"]⟩
    ⟨"Y", "ySchema", Stmt.node "sY", ["xSchema"]⟩
    (by decide) (by decide) (by decide) (by decide) (by decide) (by decide)
    (by decide) (by decide)
  exact ⟨h.1, h.2.2⟩

/-- C7: on an acyclic dependency graph over the candidates — witnessed by a
rank function strictly decreasing along dependencies and bounded by the
longest chain length L — with maxRun at least L every candidate resolves, the
unresolved report is empty, and the insertion order of the resolved mapping is
topologically valid: every non-self dependency of an entry appears as a key
strictly earlier in insertion order. -/
theorem c7_acyclic_complete_topo (cands : List Candidate) (maxRun : Int)
    (gsn : String → String) (kc : Bool) (r : String → Nat) (L : Nat)
    (hnd : (cands.map Candidate.varName).Nodup)
    (hclosed : ∀ c ∈ cands, ∀ d ∈ c.dependencies, ∃ c2 ∈ cands, c2.varName = d)
    (hrank : ∀ c ∈ cands, ∀ d ∈ c.dependencies, r d < r c.varName)
    (hbound : ∀ c ∈ cands, r c.varName < L)
    (hmax : (L : Int) ≤ maxRun) :
    (∀ c ∈ cands, hasKey (resolve cands maxRun).statements c.varName = true) ∧
    missingStatements cands (resolve cands maxRun) = [] ∧
    (generateFromCandidates cands maxRun gsn kc).errors = [] ∧
    (∀ l1 e l2, (resolve cands maxRun).statements = l1 ++ e :: l2 →
      ∀ c ∈ cands, c.varName = e.1 →
        ∀ d ∈ c.dependencies, d ≠ c.varName → d ∈ keys l1) := by
  have hfuel : L ≤ maxRun.toNat := by omega
  have hall : ∀ c ∈ cands, hasKey (resolve cands maxRun).statements c.varName = true := by
    intro c hc
    simp only [resolve]
    refine rounds_complete hnd hclosed hrank maxRun.toNat initState 0
      (by simp [initState, keys_nil]) (by simp [initState, keys_nil])
      (fun c2 _ h => absurd h (by omega)) c hc ?_
    have := hbound c hc
    omega
  have hmiss : missingStatements cands (resolve cands maxRun) = [] := by
    rw [missingStatements, List.filter_eq_nil_iff]
    intro c hc
    simp [hall c hc]
  refine ⟨hall, hmiss, ?_, ?_⟩
  · simp [generateFromCandidates, errorsOf, hmiss]
  · intro l1 e l2 heq c hc hv d hd hdne
    have htp := topoOK_rounds hnd maxRun.toNat initState (topoOK_nil cands)
    obtain ⟨c2, hc2, hvc2, hdeps⟩ := htp l1 e l2 (by simpa [resolve] using heq)
    have hceq : c2 = c := List.inj_on_of_nodup_map hnd hc2 hc (by rw [hvc2, hv])
    subst hceq
    exact hdeps d hd hdne

/-- C7 witness: a three-candidate chain with longest chain length 3 and
maxRun 10 resolves completely with no errors. -/
theorem c7_acyclic_complete_topo_witness :
    hasKey (resolve [⟨"C", "cSchema", Stmt.node "sC", ["bSchema"]⟩,
        ⟨"B", "bSchema", Stmt.node "sB", ["aSchema"]⟩,
        ⟨"A", "aSchema", Stmt.node "sA", []⟩] 10).statements "cSchema" = true ∧
    (generateFromCandidates [⟨"C", "cSchema", Stmt.node "sC", ["bSchema"]⟩,
        ⟨"B", "bSchema", Stmt.node "sB", ["aSchema"]⟩,
        ⟨"A", "aSchema", Stmt.node "sA", []⟩] 10 (fun s => s) false).errors = [] := by
  have h := c7_acyclic_complete_topo [⟨"C", "cSchema", Stmt.node "sC", ["bSchema"]⟩,
      ⟨"B", "bSchema", Stmt.node "sB", ["aSchema"]⟩,
      ⟨"A", "aSchema", Stmt.node "sA", []⟩] 10 (fun s => s) false
    (fun s => if s = "aSchema" then 0 else if s = "bSchema" then 1 else 2) 3
    (by decide) (by decide) (by decide) (by decide) (by decide)
  exact ⟨h.1 ⟨"C", "cSchema", Stmt.node "sC", ["bSchema"]⟩ (by decide), h.2.2.1⟩

/-- C1 counterexample: candidates A (no dependencies) and B (depending only
on aSchema) in that order, with maxRun 1 so only a single round runs. B's
last missing dependency is resolved by the earlier-iterated sibling A within
that same pass, yet B is resolved in this very round (and nothing is left
unresolved), contradicting the claim that it could be resolved only in a
later round. -/
theorem c1_same_round_unlock_counterexample :
    hasKey (resolve [⟨"A", "aSchema", Stmt.node "sA", []⟩,
        ⟨"B", "bSchema", Stmt.node "sB", ["aSchema"]⟩] 1).statements "bSchema" = true ∧
    missingStatements [⟨"A", "aSchema", Stmt.node "sA", []⟩,
        ⟨"B", "bSchema", Stmt.node "sB", ["aSchema"]⟩]
      (resolve [⟨"A", "aSchema", Stmt.node "sA", []⟩,
        ⟨"B", "bSchema", Stmt.node "sB", ["aSchema"]⟩] 1) = [] := by
  decide

/-- C1 amended: within a round the eligibility check consults the live map,
so a candidate whose missing dependencies are covered by the state plus an
earlier-iterated eligible sibling of the same pass is resolved in this same
round, not a later one. -/
theorem c1_same_round_unlock (st : ResolveState) (l1 l2 l3 : List Candidate)
    (cp c : Candidate)
    (hk1 : hasKey st.statements cp.varName = false)
    (hk2 : hasKey st.statements c.varName = false)
    (hel : eligible st cp)
    (hdep : ∀ d ∈ c.dependencies, d ≠ c.varName →
      hasKey st.statements d = true ∨ d = cp.varName) :
    hasKey (runPass st (l1 ++ cp :: l2 ++ c :: l3)).statements cp.varName = true ∧
    hasKey (runPass st (l1 ++ cp :: l2 ++ c :: l3)).statements c.varName = true := by
  have hfilter : (l1 ++ cp :: l2 ++ c :: l3).filter
      (fun c2 => !hasKey st.statements c2.varName) =
      l1.filter (fun c2 => !hasKey st.statements c2.varName) ++ cp ::
        (l2.filter (fun c2 => !hasKey st.statements c2.varName) ++ c ::
          l3.filter (fun c2 => !hasKey st.statements c2.varName)) := by
    simp [List.filter_append, hk1, hk2]
  unfold runPass
  rw [hfilter, List.foldl_append, List.foldl_cons, List.foldl_append, List.foldl_cons]
  constructor
  · apply foldl_hasKey_mono
    apply step_hasKey_mono
    apply foldl_hasKey_mono
    exact step_hasKey_of_eligible
      (eligible_mono (fun a ha => foldl_hasKey_mono _ _ ha) hel)
  · apply foldl_hasKey_mono
    apply step_hasKey_of_eligible
    intro d hd hdne
    rcases hdep d hd hdne with h | h
    · exact foldl_hasKey_mono _ _ (step_hasKey_mono _ (foldl_hasKey_mono _ _ h))
    · rw [h]
      exact foldl_hasKey_mono _ _ (step_hasKey_of_eligible
        (eligible_mono (fun a ha => foldl_hasKey_mono _ _ ha) hel))

/-- C1 amended witness: in the A-then-B pass from the empty state, both A and
B are resolved in the same single round. -/
theorem c1_same_round_unlock_witness :
    hasKey (runPass initState ([] ++ ⟨"A", "aSchema", Stmt.node "sA", []⟩ ::
        [] ++ ⟨"B", "bSchema", Stmt.node "sB", ["aSchema"]⟩ :: [])).statements
      "aSchema" = true ∧
    hasKey (runPass initState ([] ++ ⟨"A", "aSchema", Stmt.node "sA", []⟩ ::
        [] ++ ⟨"B", "bSchema", Stmt.node "sB", ["aSchema"]⟩ :: [])).statements
      "bSchema" = true :=
  c1_same_round_unlock initState [] [] []
    ⟨"A", "aSchema", Stmt.node "sA", []⟩ ⟨"B", "bSchema", Stmt.node "sB", ["aSchema"]⟩
    (by decide) (by decide)
    (by intro d hd; exact absurd hd (List.not_mem_nil d)) (by decide)

/-- C2 counterexample: a chain of length 3 extracted in dependency order
(independent candidate first) with maxRun 1 — the whole chain resolves in the
single round through same-pass cascading and no candidate is reported
unresolved, contradicting the claim that exactly the independent candidate
resolves regardless of extraction order. -/
theorem c2_maxrun_one_chain_counterexample :
    missingStatements [⟨"A", "aSchema", Stmt.node "sA", []⟩,
        ⟨"B", "bSchema", Stmt.node "sB", ["aSchema"]⟩,
        ⟨"C", "cSchema", Stmt.node "sC", ["bSchema"]⟩]
      (resolve [⟨"A", "aSchema", Stmt.node "sA", []⟩,
        ⟨"B", "bSchema", Stmt.node "sB", ["aSchema"]⟩,
        ⟨"C", "cSchema", Stmt.node "sC", ["bSchema"]⟩] 1) = [] ∧
    (generateFromCandidates [⟨"A", "aSchema", Stmt.node "sA", []⟩,
        ⟨"B", "bSchema", Stmt.node "sB", ["aSchema"]⟩,
        ⟨"C", "cSchema", Stmt.node "sC", ["bSchema"]⟩] 1 (fun s => s) false).errors
      = [] := by
  constructor
  · decide
  · simp [generateFromCandidates, errorsOf]
    decide

/-- C2 amended: with maxRun = 1 and a dependency chain of length 3 extracted
in reverse dependency order (most dependent first), exactly the first
independent (no-dependency) candidate resolves; the other two appear in the
single unresolved-report entry. For other extraction orders same-round
cascading can resolve more, as the counterexample shows. -/
theorem c2_maxrun_one_chain (gsn : String → String) (kc : Bool)
    (tA tB tC a b c : String) (sA sB sC : Stmt)
    (hab : a ≠ b) (hac : a ≠ c) (hbc : b ≠ c) :
    keys (resolve [⟨tC, c, sC, [b]⟩, ⟨tB, b, sB, [a]⟩, ⟨tA, a, sA, []⟩] 1).statements
      = [a] ∧
    missingStatements [⟨tC, c, sC, [b]⟩, ⟨tB, b, sB, [a]⟩, ⟨tA, a, sA, []⟩]
      (resolve [⟨tC, c, sC, [b]⟩, ⟨tB, b, sB, [a]⟩, ⟨tA, a, sA, []⟩] 1)
      = [⟨tC, c, sC, [b]⟩, ⟨tB, b, sB, [a]⟩] ∧
    (generateFromCandidates [⟨tC, c, sC, [b]⟩, ⟨tB, b, sB, [a]⟩, ⟨tA, a, sA, []⟩] 1
      gsn kc).errors = [mkErrorMessage [c, b]] := by
  have hrun : resolve [⟨tC, c, sC, [b]⟩, ⟨tB, b, sB, [a]⟩, ⟨tA, a, sA, []⟩] 1 =
      ⟨[(a, ⟨tA, sA⟩)], []⟩ := by
    simp [resolve, resolveRounds, runPass, initState, stepCandidate, hasKey, keys,
      mapSet, hbc, hab]
  have hmiss : missingStatements [⟨tC, c, sC, [b]⟩, ⟨tB, b, sB, [a]⟩, ⟨tA, a, sA, []⟩]
      (resolve [⟨tC, c, sC, [b]⟩, ⟨tB, b, sB, [a]⟩, ⟨tA, a, sA, []⟩] 1)
      = [⟨tC, c, sC, [b]⟩, ⟨tB, b, sB, [a]⟩] := by
    rw [hrun]
    simp [missingStatements, hasKey, keys, Ne.symm hac, Ne.symm hab]
  refine ⟨by rw [hrun]; rfl, hmiss, ?_⟩
  simp [generateFromCandidates, errorsOf, hmiss, mkErrorMessage]

/-- C2 amended witness: the concrete reverse-order chain C, B, A. -/
theorem c2_maxrun_one_chain_witness :
    keys (resolve [⟨"C", "cSchema", Stmt.node "sC", ["bSchema"]⟩,
        ⟨"B", "bSchema", Stmt.node "sB", ["aSchema"]⟩,
        ⟨"A", "aSchema", Stmt.node "sA", []⟩] 1).statements = ["aSchema"] ∧
    (generateFromCandidates [⟨"C", "cSchema", Stmt.node "sC", ["bSchema"]⟩,
        ⟨"B", "bSchema", Stmt.node "sB", ["aSchema"]⟩,
        ⟨"A", "aSchema", Stmt.node "sA", []⟩] 1 (fun s => s) false).errors =
      [mkErrorMessage ["cSchema", "bSchema"]] := by
  have h := c2_maxrun_one_chain (fun s => s) false "A" "B" "C"
    "aSchema" "bSchema" "cSchema" (Stmt.node "sA") (Stmt.node "sB") (Stmt.node "sC")
    (by decide) (by decide) (by decide)
  exact ⟨h.1, h.2.2⟩

/-- C8: generate is deterministic — two runs on equal source text with equal
maxRun, nameFilter, getSchemaName and keepComments options produce identical
validator-module and integration-test texts at every import path, identical
errors and identical hasCircularDependencies; the embedding is a pure
function of its inputs, mirroring the insertion-ordered Map and Set iteration
of the source. -/
theorem c8_deterministic (src1 src2 : List SourceDecl) (m1 m2 : Int)
    (nf1 nf2 : String → Bool) (g1 g2 : String → String) (kc1 kc2 : Bool)
    (p q : String)
    (hs : src1 = src2) (hm : m1 = m2) (hn : nf1 = nf2) (hg : g1 = g2)
    (hk : kc1 = kc2) :
    (generate src1 m1 nf1 g1 kc1).getZodSchemasFile p =
      (generate src2 m2 nf2 g2 kc2).getZodSchemasFile p ∧
    (generate src1 m1 nf1 g1 kc1).getIntegrationTestFile p q =
      (generate src2 m2 nf2 g2 kc2).getIntegrationTestFile p q ∧
    (generate src1 m1 nf1 g1 kc1).errors = (generate src2 m2 nf2 g2 kc2).errors ∧
    (generate src1 m1 nf1 g1 kc1).hasCircularDependencies =
      (generate src2 m2 nf2 g2 kc2).hasCircularDependencies := by
  subst hs
  subst hm
  subst hn
  subst hg
  subst hk
  exact ⟨rfl, rfl, rfl, rfl⟩

/-- C8 witness: a concrete two-declaration source run twice. -/
theorem c8_deterministic_witness :
    (generate [⟨"A", ["B"]⟩, ⟨"B", []⟩] 10 (fun _ => true)
        (fun s => s ++ "Schema") false).getZodSchemasFile "./t" =
      (generate [⟨"A", ["B"]⟩, ⟨"B", []⟩] 10 (fun _ => true)
        (fun s => s ++ "Schema") false).getZodSchemasFile "./t" ∧
    (generate [⟨"A", ["B"]⟩, ⟨"B", []⟩] 10 (fun _ => true)
        (fun s => s ++ "Schema") false).getIntegrationTestFile "./t" "./z" =
      (generate [⟨"A", ["B"]⟩, ⟨"B", []⟩] 10 (fun _ => true)
        (fun s => s ++ "Schema") false).getIntegrationTestFile "./t" "./z" ∧
    (generate [⟨"A", ["B"]⟩, ⟨"B", []⟩] 10 (fun _ => true)
        (fun s => s ++ "Schema") false).errors =
      (generate [⟨"A", ["B"]⟩, ⟨"B", []⟩] 10 (fun _ => true)
        (fun s => s ++ "Schema") false).errors ∧
    (generate [⟨"A", ["B"]⟩, ⟨"B", []⟩] 10 (fun _ => true)
        (fun s => s ++ "Schema") false).hasCircularDependencies =
      (generate [⟨"A", ["B"]⟩, ⟨"B", []⟩] 10 (fun _ => true)
        (fun s => s ++ "Schema") false).hasCircularDependencies :=
  c8_deterministic [⟨"A", ["B"]⟩, ⟨"B", []⟩] [⟨"A", ["B"]⟩, ⟨"B", []⟩] 10 10
    (fun _ => true) (fun _ => true) (fun s => s ++ "Schema") (fun s => s ++ "Schema")
    false false "./t" "./z" rfl rfl rfl rfl rfl

end TsToZod
